import Mathlib

/-!
Verification model of the oneDNN memory descriptor subsystem declared in
source/elements/oneDNN/include/dnnl.hpp (struct memory, enum data_type,
enum format_tag, struct memory::desc and its operations).

The header is a specification header: it declares the operations and
documents their semantics in doc comments, but contains no implementation
bodies.  Every operation below is therefore modelled from the spec, which
means the doc comments of dnnl.hpp together with the natural language
specification of the layout descriptor component (construction by format
tag, sub-region carve-out, reshape legality as a composition of the four
documented basic operations, axis permutation, byte size, zero and
zero-volume descriptors, failure dichotomy controlled by allow_empty).
-/

namespace dnnl

/-- Modelled from the spec: the single exception class of the library
(struct error in dnnl.hpp). A derivation operation signals it when the
requested layout transformation is impossible and allow_empty is false. -/
inductive error : Type
  | mk
deriving DecidableEq

/-- Decidable equality of operation results, used to state and evaluate
concrete scenarios. -/
instance exceptDecEq {ε α : Type} [DecidableEq ε] [DecidableEq α] :
    DecidableEq (Except ε α) := fun u v =>
  match u, v with
  | .ok a, .ok b =>
    if h : a = b then isTrue (by rw [h])
    else isFalse (fun hc => by cases hc; exact h rfl)
  | .error e, .error f =>
    if h : e = f then isTrue (by rw [h])
    else isFalse (fun hc => by cases hc; exact h rfl)
  | .ok _, .error _ => isFalse (fun hc => by cases hc)
  | .error _, .ok _ => isFalse (fun hc => by cases hc)

namespace memory

/-- Data type specification (enum class memory::data_type in dnnl.hpp). -/
inductive data_type : Type
  | undef
  | f16
  | bf16
  | f32
  | s32
  | s8
  | u8
deriving DecidableEq

/-- Modelled from the spec: the byte size of each element data type.  The
undef data type is used only by empty memory descriptors and occupies no
bytes. -/
def data_type.size : data_type → Nat
  | .undef => 0
  | .f16 => 2
  | .bf16 => 2
  | .f32 => 4
  | .s32 => 4
  | .s8 => 1
  | .u8 => 1

/-- Memory format tag specification (enum class memory::format_tag in
dnnl.hpp).  Only the domain-agnostic letter tags are distinct enumerators;
every domain-specific name below is declared in the header as an alias,
that is, the very same enumerator value. -/
inductive format_tag : Type
  | undef
  | any
  | a
  | ab
  | ba
  | abc
  | acb
  | bac
  | bca
  | cba
  | abcd
  | abdc
  | acdb
  | bacd
  | bcda
  | cdba
  | dcab
  | abcde
  | abdec
  | acbde
  | acdeb
  | bcdea
  | cdeba
  | decab
  | abcdef
  | acbdef
  | defcab
deriving DecidableEq

namespace format_tag

/-- Alias x = a from dnnl.hpp. -/
def x : format_tag := a
/-- Alias nc = ab from dnnl.hpp. -/
def nc : format_tag := ab
/-- Alias cn = ba from dnnl.hpp. -/
def cn : format_tag := ba
/-- Alias tn = ab from dnnl.hpp. -/
def tn : format_tag := ab
/-- Alias nt = ba from dnnl.hpp. -/
def nt : format_tag := ba
/-- Alias ncw = abc from dnnl.hpp. -/
def ncw : format_tag := abc
/-- Alias nwc = acb from dnnl.hpp. -/
def nwc : format_tag := acb
/-- Alias nchw = abcd from dnnl.hpp. -/
def nchw : format_tag := abcd
/-- Alias nhwc = acdb from dnnl.hpp. -/
def nhwc : format_tag := acdb
/-- Alias chwn = bcda from dnnl.hpp. -/
def chwn : format_tag := bcda
/-- Alias ncdhw = abcde from dnnl.hpp. -/
def ncdhw : format_tag := abcde
/-- Alias ndhwc = acdeb from dnnl.hpp. -/
def ndhwc : format_tag := acdeb
/-- Alias oi = ab from dnnl.hpp. -/
def oi : format_tag := ab
/-- Alias of ba from dnnl.hpp, the 2D weights tensor with swapped axes. -/
def  io : format_tag := ba
/-- Alias oiw = abc from dnnl.hpp. -/
def oiw : format_tag := abc
/-- Alias owi = acb from dnnl.hpp. -/
def owi : format_tag := acb
/-- Alias of cba from dnnl.hpp for 3D weights. -/
def  wio : format_tag := cba
/-- Alias iwo = bca from dnnl.hpp. -/
def iwo : format_tag := bca
/-- Alias oihw = abcd from dnnl.hpp. -/
def oihw : format_tag := abcd
/-- Alias of cdba from dnnl.hpp for 4D weights. -/
def  hwio : format_tag := cdba
/-- Alias ohwi = acdb from dnnl.hpp. -/
def ohwi : format_tag := acdb
/-- Alias ihwo = bcda from dnnl.hpp. -/
def ihwo : format_tag := bcda
/-- Alias iohw = bacd from dnnl.hpp. -/
def iohw : format_tag := bacd
/-- Alias oidhw = abcde from dnnl.hpp. -/
def oidhw : format_tag := abcde
/-- Alias of cdeba from dnnl.hpp for 5D weights. -/
def  dhwio : format_tag := cdeba
/-- Alias odhwi = acdeb from dnnl.hpp. -/
def odhwi : format_tag := acdeb
/-- Alias idhwo = bcdea from dnnl.hpp. -/
def idhwo : format_tag := bcdea
/-- Alias goiw = abcd from dnnl.hpp. -/
def goiw : format_tag := abcd
/-- Alias wigo = dcab from dnnl.hpp. -/
def wigo : format_tag := dcab
/-- Alias goihw = abcde from dnnl.hpp. -/
def goihw : format_tag := abcde
/-- Alias hwigo = decab from dnnl.hpp. -/
def hwigo : format_tag := decab
/-- Alias giohw = acbde from dnnl.hpp. -/
def giohw : format_tag := acbde
/-- Alias goidhw = abcdef from dnnl.hpp. -/
def goidhw : format_tag := abcdef
/-- Alias giodhw = acbdef from dnnl.hpp. -/
def giodhw : format_tag := acbdef
/-- Alias dhwigo = defcab from dnnl.hpp. -/
def dhwigo : format_tag := defcab
/-- Alias tnc = abc from dnnl.hpp. -/
def tnc : format_tag := abc
/-- Alias ntc = bac from dnnl.hpp. -/
def ntc : format_tag := bac
/-- Alias ldnc = abcd from dnnl.hpp. -/
def ldnc : format_tag := abcd
/-- Alias ldigo = abcde from dnnl.hpp. -/
def ldigo : format_tag := abcde
/-- Alias ldgoi = abdec from dnnl.hpp. -/
def ldgoi : format_tag := abdec
/-- Alias of abcd from dnnl.hpp for the LSTM projection tensor. -/
def  ldio : format_tag := abcd
/-- Alias ldoi = abdc from dnnl.hpp. -/
def ldoi : format_tag := abdc
/-- Alias ldgo = abcd from dnnl.hpp. -/
def ldgo : format_tag := abcd

/-- Modelled from the spec: the canonical physical layout denoted by each
concrete format tag, as the list of logical axes ordered from the
outermost (largest stride) to the innermost (stride one).  The letter
sequence of the tag name spells exactly this order, with letter a denoting
logical axis 0, letter b axis 1, and so on.  The undef and any tags do not
denote a concrete layout. -/
def layout : format_tag → Option (List Nat)
  | .undef => none
  | .any => none
  | .a => some [0]
  | .ab => some [0, 1]
  | .ba => some [1, 0]
  | .abc => some [0, 1, 2]
  | .acb => some [0, 2, 1]
  | .bac => some [1, 0, 2]
  | .bca => some [1, 2, 0]
  | .cba => some [2, 1, 0]
  | .abcd => some [0, 1, 2, 3]
  | .abdc => some [0, 1, 3, 2]
  | .acdb => some [0, 2, 3, 1]
  | .bacd => some [1, 0, 2, 3]
  | .bcda => some [1, 2, 3, 0]
  | .cdba => some [2, 3, 1, 0]
  | .dcab => some [3, 2, 0, 1]
  | .abcde => some [0, 1, 2, 3, 4]
  | .abdec => some [0, 1, 3, 4, 2]
  | .acbde => some [0, 2, 1, 3, 4]
  | .acdeb => some [0, 2, 3, 4, 1]
  | .bcdea => some [1, 2, 3, 4, 0]
  | .cdeba => some [2, 3, 4, 1, 0]
  | .decab => some [3, 4, 2, 0, 1]
  | .abcdef => some [0, 1, 2, 3, 4, 5]
  | .acbdef => some [0, 2, 1, 3, 4, 5]
  | .defcab => some [3, 4, 5, 2, 0, 1]

end format_tag

/-- A memory descriptor (struct memory::desc in dnnl.hpp).  Modelled from
the spec: an ordered sequence of dimension sizes, an element data type, a
per-dimension stride list giving the physical layout, and an element
offset from the start of the underlying buffer (introduced by sub-region
carve-outs).  Dimensions and strides use the dim type of the header,
int64_t, modelled as Int. -/
structure desc : Type where
  dims : List Int
  data_type : data_type
  strides : List Int
  offset : Int
deriving DecidableEq

namespace desc

/-- The zero (empty) memory descriptor produced by the default constructor
desc() in dnnl.hpp, used to indicate absence of an argument and returned
by failed derivation operations when allow_empty is true. -/
def zero : desc := ⟨[], .undef, [], 0⟩

/-- Modelled from the spec: the common failure path of every construction
and derivation operation.  With allow_empty set the operation returns the
zero memory descriptor, otherwise it signals the error exception. -/
def fallback (allow_empty : Bool) : Except error desc :=
  if allow_empty then .ok zero else .error .mk

/-- Modelled from the spec: the stride of logical axis k under the layout
order ord (outermost first), namely the product of the sizes of all axes
laid out inside axis k. -/
def stride_of (dims : List Int) (ord : List Nat) (k : Nat) : Int :=
  (((ord.drop (ord.indexOf k + 1)).map (fun j => dims.getD j 1)).prod)

/-- Modelled from the spec: the canonical dense stride list that a format
tag with layout order ord assigns to the given dimensions. -/
def strides_for (dims : List Int) (ord : List Nat) : List Int :=
  (List.range dims.length).map (stride_of dims ord)

/-- Modelled from the spec: the constructor desc(dims, data_type,
format_tag, allow_empty) of dnnl.hpp.  Construction succeeds when the tag
denotes a concrete layout whose rank matches the number of dimensions, all
dimensions are non-negative (zero sizes are allowed and give a zero-volume
descriptor), and the data type is not undef; the descriptor then carries
the canonical strides of the tag.  Otherwise construction fails per the
allow_empty flag. -/
def construct (dims : List Int) (dt : memory.data_type) (tag : format_tag)
    (allow_empty : Bool) : Except error desc :=
  match tag.layout with
  | some ord =>
    if (ord.length == dims.length && dims.all (fun v => decide (0 ≤ v)))
        && !(dt == data_type.undef) then
      .ok ⟨dims, dt, strides_for dims ord, 0⟩
    else fallback allow_empty
  | none => fallback allow_empty

/-- Modelled from the spec: legality of submemory_desc(sizes, offsets).
The region must give one size and one offset per dimension, each
non-negative, and must lie inside the bounds of the encompassing
descriptor in every dimension. -/
def submemory_legal (d : desc) (sizes offsets : List Int) : Bool :=
  (sizes.length == d.dims.length && offsets.length == d.dims.length)
    && (offsets.zip (sizes.zip d.dims)).all
      (fun t : Int × Int × Int => decide (0 ≤ t.1) && decide (0 ≤ t.2.1)
        && decide (t.1 + t.2.1 ≤ t.2.2))

/-- Modelled from the spec: memory::desc::submemory_desc of dnnl.hpp.  A
legal sub-region keeps the data type and the parent strides, takes the
requested sizes as its dimensions, and advances the element offset by the
offsets combined with the parent strides.  An out-of-bounds or malformed
region fails per the allow_empty flag. -/
def submemory_desc (d : desc) (sizes offsets : List Int)
    (allow_empty : Bool) : Except error desc :=
  if submemory_legal d sizes offsets then
    .ok ⟨sizes, d.data_type, d.strides,
      d.offset + ((offsets.zip d.strides).map (fun pr : Int × Int => pr.1 * pr.2)).sum⟩
  else fallback allow_empty

/-- Modelled from the spec: the stride computation of reshape, walking the
old (dimension, stride) pairs against the new dimensions and applying the
four documented basic operations. Matching dimensions keep their stride;
removing a size one dimension is always possible here because no format
tag of the header introduces padding; inserting a size one dimension is
always possible; splitting a dimension produces an outer part whose stride
is the stride of the remaining inner part times its size; joining two
consecutive dimensions requires them to be dense and in matching logical
and physical order, that is, the outer stride equals the inner stride
times the inner size. -/
def reshape_steps (fuel : Nat) (olds : List (Int × Int)) (news : List Int) :
    Option (List Int) :=
  match fuel with
  | 0 => none
  | fuel + 1 =>
    match olds, news with
    | [], [] => some []
    | [], n0 :: ntl =>
      if n0 = 1 then (reshape_steps fuel [] ntl).map (fun ss => 1 :: ss)
      else none
    | (d0, _) :: otl, [] =>
      if d0 = 1 then reshape_steps fuel otl [] else none
    | (d0, s0) :: otl, n0 :: ntl =>
      if d0 = n0 then (reshape_steps fuel otl ntl).map (fun ss => s0 :: ss)
      else if d0 = 1 then reshape_steps fuel otl (n0 :: ntl)
      else if n0 = 1 then
        (reshape_steps fuel ((d0, s0) :: otl) ntl).map
          (fun ss => d0 * s0 :: ss)
      else if 1 < n0 ∧ d0 % n0 = 0 then
        (reshape_steps fuel ((d0 / n0, s0) :: otl) ntl).map
          (fun ss => s0 * (d0 / n0) :: ss)
      else
        match otl with
        | (d1, s1) :: ott =>
          if s0 = s1 * d1 then
            reshape_steps fuel ((d0 * d1, s1) :: ott) (n0 :: ntl)
          else none
        | [] => none

/-- Modelled from the spec: the stride transformation of reshape, run with
enough fuel for its two shrinking lists. Every recursive step of
reshape_steps consumes an old entry or a new entry, so this fuel is never
exhausted on the way to an answer. -/
def reshape_strides (olds : List (Int × Int)) (news : List Int) :
    Option (List Int) :=
  reshape_steps (olds.length + news.length + 1) olds news

/-- Modelled from the spec: legality of reshape(new_dims).  The new
dimensions must be non-negative, keep the total element count invariant,
and the physical layout must transform along the documented basic
operations. -/
def reshape_legal (d : desc) (nd : List Int) : Bool :=
  (nd.all (fun v => decide (0 ≤ v)) && (nd.prod == d.dims.prod))
    && (reshape_strides (d.dims.zip d.strides) nd).isSome

/-- Modelled from the spec: memory::desc::reshape of dnnl.hpp.  A legal
reshape keeps the data type and offset and carries the transformed stride
list; an illegal one fails per the allow_empty flag. -/
def reshape (d : desc) (nd : List Int) (allow_empty : Bool) :
    Except error desc :=
  if nd.all (fun v => decide (0 ≤ v)) && (nd.prod == d.dims.prod) then
    match reshape_strides (d.dims.zip d.strides) nd with
    | some ss => .ok ⟨nd, d.data_type, ss, d.offset⟩
    | none => fallback allow_empty
  else fallback allow_empty

/-- Modelled from the spec: validity of the argument of permute_axes, a
bijection over the axis indices of the descriptor presented as a list of
integers. -/
def perm_ok (p : List Int) (n : Nat) : Bool :=
  decide (List.Perm p ((List.range n).map Int.ofNat))

/-- Modelled from the spec: the axis permutation of dnnl.hpp applied to a
per-axis list, with new value at position permutation[i] taken from old
position i; equivalently, position j receives the value at the position of
j inside the permutation list. -/
def perm_apply (p : List Int) (l : List Int) : List Int :=
  (List.range l.length).map (fun j => l.getD (p.indexOf (Int.ofNat j)) 0)

/-- Modelled from the spec: the inverse of a permutation list, holding at
position j the position of value j inside the original list. -/
def perm_inverse (p : List Int) : List Int :=
  (List.range p.length).map (fun j => Int.ofNat (p.indexOf (Int.ofNat j)))

/-- Modelled from the spec: memory::desc::permute_axes of dnnl.hpp.  A
valid permutation is applied to the dimensions and identically to the
strides, keeping data type and offset; an invalid one fails per the
allow_empty flag. -/
def permute_axes (d : desc) (p : List Int) (allow_empty : Bool) :
    Except error desc :=
  if perm_ok p d.dims.length then
    .ok ⟨perm_apply p d.dims, d.data_type, perm_apply p d.strides, d.offset⟩
  else fallback allow_empty

/-- Modelled from the spec: memory::desc::get_size of dnnl.hpp, the number
of bytes needed for a buffer holding the described data: one plus the
largest reachable element offset span, times the element byte size.  For a
zero-volume descriptor the span sum collapses and the size is zero. -/
def get_size (d : desc) : Nat :=
  (1 + ((d.dims.zip d.strides).map (fun pr : Int × Int => (pr.1 - 1) * pr.2)).sum).toNat
    * d.data_type.size

/-- Modelled from the spec: memory::desc::is_zero of dnnl.hpp, true
exactly on the zero (empty) memory descriptor, which has no dimensions. -/
def is_zero (d : desc) : Bool := d.dims.isEmpty

/-- Modelled from the spec: the equality operator of memory::desc, which
compares dimensions, data type, strides and offsets structurally. -/
def equals (d1 d2 : desc) : Bool := decide (d1 = d2)

/-- Structural well-formedness of a descriptor: one stride per dimension
and non-negative dimensions, as guaranteed for every descriptor built by
the constructors of this model. -/
def valid (d : desc) : Bool :=
  (d.strides.length == d.dims.length) && d.dims.all (fun v => decide (0 ≤ v))

end desc

/-- The operations a client can run against a memory descriptor held in a
session: the three derivation operations of memory::desc, and the four
queries.  Modelled from the spec to express the lifecycle rule that
descriptors are immutable value objects. -/
inductive desc_op : Type
  | subm (sizes offsets : List Int) (allow_empty : Bool)
  | resh (nd : List Int) (allow_empty : Bool)
  | permute (p : List Int) (allow_empty : Bool)
  | qdims
  | qtype
  | qsize
  | qzero

/-- Modelled from the spec: one client step against a store of existing
descriptor values.  A derivation operation applied to the descriptor at
position i appends the derived descriptor as a new independent value when
it succeeds, and appends nothing when it fails; a query appends nothing.
No operation ever rewrites an existing slot. -/
def derive_step (store : List desc) (i : Nat) (o : desc_op) : List desc :=
  match store[i]? with
  | none => store
  | some d =>
    match o with
    | .subm sizes offsets ae =>
      match d.submemory_desc sizes offsets ae with
      | .ok d2 => store ++ [d2]
      | .error _ => store
    | .resh nd ae =>
      match d.reshape nd ae with
      | .ok d2 => store ++ [d2]
      | .error _ => store
    | .permute p ae =>
      match d.permute_axes p ae with
      | .ok d2 => store ++ [d2]
      | .error _ => store
    | .qdims => store
    | .qtype => store
    | .qsize => store
    | .qzero => store

/-- The domain-specific format tag names that dnnl.hpp declares as
aliases, each paired with the domain-agnostic letter tag it is an alias
of, exactly as enumerated in the header. -/
def alias_pairs : List (format_tag × format_tag) :=
  [(format_tag.x, format_tag.a),
   (format_tag.nc, format_tag.ab),
   (format_tag.cn, format_tag.ba),
   (format_tag.tn, format_tag.ab),
   (format_tag.nt, format_tag.ba),
   (format_tag.ncw, format_tag.abc),
   (format_tag.nwc, format_tag.acb),
   (format_tag.nchw, format_tag.abcd),
   (format_tag.nhwc, format_tag.acdb),
   (format_tag.chwn, format_tag.bcda),
   (format_tag.ncdhw, format_tag.abcde),
   (format_tag.ndhwc, format_tag.acdeb),
   (format_tag.oi, format_tag.ab),
   (format_tag.io, format_tag.ba),
   (format_tag.oiw, format_tag.abc),
   (format_tag.owi, format_tag.acb),
   (format_tag.wio, format_tag.cba),
   (format_tag.iwo, format_tag.bca),
   (format_tag.oihw, format_tag.abcd),
   (format_tag.hwio, format_tag.cdba),
   (format_tag.ohwi, format_tag.acdb),
   (format_tag.ihwo, format_tag.bcda),
   (format_tag.iohw, format_tag.bacd),
   (format_tag.oidhw, format_tag.abcde),
   (format_tag.dhwio, format_tag.cdeba),
   (format_tag.odhwi, format_tag.acdeb),
   (format_tag.idhwo, format_tag.bcdea),
   (format_tag.goiw, format_tag.abcd),
   (format_tag.wigo, format_tag.dcab),
   (format_tag.goihw, format_tag.abcde),
   (format_tag.hwigo, format_tag.decab),
   (format_tag.giohw, format_tag.acbde),
   (format_tag.goidhw, format_tag.abcdef),
   (format_tag.giodhw, format_tag.acbdef),
   (format_tag.dhwigo, format_tag.defcab),
   (format_tag.tnc, format_tag.abc),
   (format_tag.ntc, format_tag.bac),
   (format_tag.ldnc, format_tag.abcd),
   (format_tag.ldigo, format_tag.abcde),
   (format_tag.ldgoi, format_tag.abdec),
   (format_tag.ldio, format_tag.abcd),
   (format_tag.ldoi, format_tag.abdc),
   (format_tag.ldgo, format_tag.abcd)]

/-- C10: the default constructed descriptor desc() is the canonical empty
sentinel: is_zero returns true on it, its data type is the undef data
type, and it compares equal under the equality operator to every other
default constructed descriptor (in this model every default construction
yields the single value desc.zero). -/
theorem C10_default_is_empty_sentinel :
    desc.zero.is_zero = true ∧ desc.zero.data_type = data_type.undef ∧
      desc.equals desc.zero desc.zero = true := by
  decide

/-- C2 counterexample: for the descriptor built from dims [2, 3], data
type f32 and format tag ab, the reshape to [3, 2] does not fail as the
claim states: it succeeds, because the two dense row-major dimensions may
legally be joined to [6] and then split to [3, 2] under the basic
operations documented for reshape in dnnl.hpp. -/
theorem C2_counterexample :
    desc.construct [2, 3] data_type.f32 format_tag.ab false =
        .ok ⟨[2, 3], .f32, [3, 1], 0⟩ ∧
      desc.reshape ⟨[2, 3], .f32, [3, 1], 0⟩ [3, 2] false =
        .ok ⟨[3, 2], .f32, [2, 1], 0⟩ := by
  decide

/-- C2 amended: for the descriptor built from dims [2, 3], data type f32
and format tag ab, reshape to [3, 2] succeeds (a legal join followed by a
split of dense, order-preserving dimensions), reshape to [6] succeeds, and
reshaping the [6] result back to [2, 3] yields a descriptor equal to the
original. -/
theorem C2_scenario_reshape :
    desc.construct [2, 3] data_type.f32 format_tag.ab false =
        .ok ⟨[2, 3], .f32, [3, 1], 0⟩ ∧
      desc.reshape ⟨[2, 3], .f32, [3, 1], 0⟩ [3, 2] false =
        .ok ⟨[3, 2], .f32, [2, 1], 0⟩ ∧
      desc.reshape ⟨[2, 3], .f32, [3, 1], 0⟩ [6] false =
        .ok ⟨[6], .f32, [1], 0⟩ ∧
      desc.reshape ⟨[6], .f32, [1], 0⟩ [2, 3] false =
        .ok ⟨[2, 3], .f32, [3, 1], 0⟩ := by
  decide

/-- C9: descriptors are immutable value objects: a derivation operation or
query run against any descriptor of a store never changes any existing
descriptor value; a successful derivation only appends a new independent
descriptor at the end of the store. -/
theorem C9_descriptors_immutable :
    ∀ (store : List desc) (i : Nat) (o : desc_op),
      (derive_step store i o).take store.length = store := by
  intro store i o
  unfold derive_step
  cases hi : store[i]? with
  | none => simp [hi]
  | some d =>
    cases o with
    | subm sizes offsets ae =>
      cases hr : d.submemory_desc sizes offsets ae <;>
        simp [hi, hr, List.take_left]
    | resh nd ae =>
      cases hr : d.reshape nd ae <;> simp [hi, hr, List.take_left]
    | permute p ae =>
      cases hr : d.permute_axes p ae <;> simp [hi, hr, List.take_left]
    | qdims => simp [hi]
    | qtype => simp [hi]
    | qsize => simp [hi]
    | qzero => simp [hi]

/-- C5: for every dimension sequence and data type, two descriptors
constructed from two format tags that the header documents as aliases of
one another compare equal under the equality operator. -/
theorem C5_alias_tags_equal_descriptors :
    ∀ pr ∈ alias_pairs, ∀ (dims : List Int) (dt : data_type) (ae : Bool)
      (d1 d2 : desc),
      desc.construct dims dt pr.1 ae = .ok d1 →
      desc.construct dims dt pr.2 ae = .ok d2 →
      desc.equals d1 d2 = true := by
  intro pr hpr dims dt ae d1 d2 h1 h2
  have hfs : pr.1 = pr.2 := by fin_cases hpr <;> rfl
  rw [hfs, h2] at h1
  injection h1 with h
  simp [desc.equals, h]

/-- C5 witness: the alias pair nc and ab at dims [4, 5] with data type
f32. -/
theorem C5_alias_witness :
    desc.equals ⟨[4, 5], .f32, [5, 1], 0⟩ ⟨[4, 5], .f32, [5, 1], 0⟩
      = true :=
  C5_alias_tags_equal_descriptors (format_tag.nc, format_tag.ab)
    (by decide) [4, 5] data_type.f32 false
    ⟨[4, 5], .f32, [5, 1], 0⟩ ⟨[4, 5], .f32, [5, 1], 0⟩
    (by decide) (by decide)

/-- C6: for every dimension sequence containing a zero (all dimensions
non-negative), construction with a valid data type and a concrete format
tag of matching rank succeeds, the result is not the empty sentinel, and
the product of its dimensions is zero. -/
theorem C6_zero_volume_valid :
    ∀ (dims : List Int) (dt : data_type) (tag : format_tag)
      (ord : List Nat),
      tag.layout = some ord → ord.length = dims.length →
      dims.all (fun v => decide (0 ≤ v)) = true → (0 : Int) ∈ dims →
      dt ≠ data_type.undef →
      ∃ d, desc.construct dims dt tag false = .ok d ∧
        d.is_zero = false ∧ d.dims.prod = 0 := by
  intro dims dt tag ord hl hlen hnn hmem hdt
  refine ⟨⟨dims, dt, desc.strides_for dims ord, 0⟩, ?_, ?_, ?_⟩
  · unfold desc.construct
    rw [hl]
    have h2 : (dt == data_type.undef) = false := by
      simp only [beq_eq_false_iff_ne, ne_eq]
      exact hdt
    simp [hlen, hnn, h2]
  · show dims.isEmpty = false
    cases dims with
    | nil => exact absurd hmem (List.not_mem_nil 0)
    | cons v tl => rfl
  · exact List.prod_eq_zero hmem

/-- C6 witness: dims [2, 0, 3] with data type f32 and format tag abc. -/
theorem C6_zero_volume_witness :
    ∃ d, desc.construct [2, 0, 3] data_type.f32 format_tag.abc false
        = .ok d ∧ d.is_zero = false ∧ d.dims.prod = 0 :=
  C6_zero_volume_valid [2, 0, 3] data_type.f32 format_tag.abc [0, 1, 2]
    rfl (by decide) (by decide) (by decide) (by decide)

/-- C1: for each derivation operation on a descriptor, an illegal input
fails atomically: with allow_empty false it signals the error exception
and with allow_empty true it returns the canonical empty descriptor, while
a legal input fully succeeds with one and the same derived descriptor
under both flags.  Every operation of the model is a pure function of its
receiver and arguments, so no failure can alter any existing descriptor
value, the receiver included. -/
theorem C1_failure_dichotomy :
    ∀ (d : desc) (sizes offsets nd p : List Int),
      (desc.submemory_legal d sizes offsets = false →
        d.submemory_desc sizes offsets false = .error .mk ∧
        d.submemory_desc sizes offsets true = .ok desc.zero) ∧
      (desc.submemory_legal d sizes offsets = true →
        ∃ r, ∀ ae, d.submemory_desc sizes offsets ae = .ok r) ∧
      (desc.reshape_legal d nd = false →
        d.reshape nd false = .error .mk ∧
        d.reshape nd true = .ok desc.zero) ∧
      (desc.reshape_legal d nd = true →
        ∃ r, ∀ ae, d.reshape nd ae = .ok r) ∧
      (desc.perm_ok p d.dims.length = false →
        d.permute_axes p false = .error .mk ∧
        d.permute_axes p true = .ok desc.zero) ∧
      (desc.perm_ok p d.dims.length = true →
        ∃ r, ∀ ae, d.permute_axes p ae = .ok r) := by
  intro d sizes offsets nd p
  refine ⟨?_, ?_, ?_, ?_, ?_, ?_⟩
  · intro h
    exact ⟨by simp [desc.submemory_desc, h, desc.fallback],
      by simp [desc.submemory_desc, h, desc.fallback]⟩
  · intro h
    refine ⟨⟨sizes, d.data_type, d.strides, d.offset
      + ((offsets.zip d.strides).map (fun pr : Int × Int => pr.1 * pr.2)).sum⟩,
      fun ae => ?_⟩
    simp [desc.submemory_desc, h]
  · intro h
    unfold desc.reshape_legal at h
    by_cases hg :
        (nd.all (fun v => decide (0 ≤ v)) && (nd.prod == d.dims.prod))
          = true
    · rw [hg] at h
      simp only [Bool.true_and] at h
      cases hrs : desc.reshape_strides (d.dims.zip d.strides) nd with
      | some ss => rw [hrs] at h; simp at h
      | none =>
        exact ⟨by simp [desc.reshape, hg, hrs, desc.fallback],
          by simp [desc.reshape, hg, hrs, desc.fallback]⟩
    · rw [Bool.not_eq_true] at hg
      exact ⟨by simp [desc.reshape, hg, desc.fallback],
        by simp [desc.reshape, hg, desc.fallback]⟩
  · intro h
    unfold desc.reshape_legal at h
    rw [Bool.and_eq_true] at h
    obtain ⟨hg, hs⟩ := h
    rw [Option.isSome_iff_exists] at hs
    obtain ⟨ss, hss⟩ := hs
    refine ⟨⟨nd, d.data_type, ss, d.offset⟩, fun ae => ?_⟩
    simp [desc.reshape, hg, hss]
  · intro h
    exact ⟨by simp [desc.permute_axes, h, desc.fallback],
      by simp [desc.permute_axes, h, desc.fallback]⟩
  · intro h
    refine ⟨⟨desc.perm_apply p d.dims, d.data_type,
      desc.perm_apply p d.strides, d.offset⟩, fun ae => ?_⟩
    simp [desc.permute_axes, h]

/-- C1 witness: concrete illegal inputs for each derivation operation on
the [2, 3] row-major f32 descriptor: an out-of-bounds sub-region, a
reshape that changes the element count, and a non-bijective axis
permutation. -/
theorem C1_failure_witness :
    (desc.submemory_desc ⟨[2, 3], .f32, [3, 1], 0⟩ [2, 4] [0, 0] false
        = .error .mk ∧
      desc.submemory_desc ⟨[2, 3], .f32, [3, 1], 0⟩ [2, 4] [0, 0] true
        = .ok desc.zero) ∧
    (desc.reshape ⟨[2, 3], .f32, [3, 1], 0⟩ [5] false = .error .mk ∧
      desc.reshape ⟨[2, 3], .f32, [3, 1], 0⟩ [5] true = .ok desc.zero) ∧
    (desc.permute_axes ⟨[2, 3], .f32, [3, 1], 0⟩ [0, 0] false
        = .error .mk ∧
      desc.permute_axes ⟨[2, 3], .f32, [3, 1], 0⟩ [0, 0] true
        = .ok desc.zero) :=
  ⟨(C1_failure_dichotomy ⟨[2, 3], .f32, [3, 1], 0⟩ [2, 4] [0, 0] [5]
      [0, 0]).1 (by decide),
    (C1_failure_dichotomy ⟨[2, 3], .f32, [3, 1], 0⟩ [2, 4] [0, 0] [5]
      [0, 0]).2.2.1 (by decide),
    (C1_failure_dichotomy ⟨[2, 3], .f32, [3, 1], 0⟩ [2, 4] [0, 0] [5]
      [0, 0]).2.2.2.2.1 (by decide)⟩

/-- Running the reshape stride transformation against an unchanged
dimension list matches every dimension one to one and returns the original
strides, for any sufficient fuel. -/
theorem reshape_steps_id :
    ∀ (ds ss : List Int) (fuel : Nat), ss.length = ds.length →
      ds.length + ds.length < fuel →
      desc.reshape_steps fuel (ds.zip ss) ds = some ss := by
  intro ds
  induction ds with
  | nil =>
    intro ss fuel hlen hf
    cases ss with
    | nil =>
      cases fuel with
      | zero => omega
      | succ f => rfl
    | cons s stl => simp at hlen
  | cons d dtl ih =>
    intro ss fuel hlen hf
    cases ss with
    | nil => simp at hlen
    | cons s stl =>
      cases fuel with
      | zero => omega
      | succ f =>
        have hstep := ih stl f (by simpa using hlen) (by simp at hf ⊢; omega)
        simp only [List.zip_cons_cons, desc.reshape_steps, if_pos rfl,
          hstep, Option.map_some]
        simp

/-- C4: reshaping a valid descriptor to its own dimension sequence
succeeds under either allow_empty flag and returns a descriptor equal to
the original. -/
theorem C4_identity_reshape :
    ∀ (d : desc) (ae : Bool), d.valid = true →
      d.reshape d.dims ae = .ok d := by
  intro d ae hv
  unfold desc.valid at hv
  rw [Bool.and_eq_true] at hv
  obtain ⟨hlen, hnn⟩ := hv
  rw [beq_iff_eq] at hlen
  have hg : (d.dims.all (fun v => decide (0 ≤ v))
      && (d.dims.prod == d.dims.prod)) = true := by
    simp [hnn]
  have hzip : (d.dims.zip d.strides).length + d.dims.length + 1
      = d.dims.length + d.dims.length + 1 := by
    simp [List.length_zip, hlen]
  have hid : desc.reshape_strides (d.dims.zip d.strides) d.dims
      = some d.strides := by
    unfold desc.reshape_strides
    rw [hzip]
    exact reshape_steps_id d.dims d.strides _ hlen (by omega)
  simp only [desc.reshape, hg, if_pos, hid]

/-- C4 witness: the identity reshape of the [2, 3] row-major f32
descriptor. -/
theorem C4_identity_witness :
    desc.reshape ⟨[2, 3], .f32, [3, 1], 0⟩ [2, 3] false
      = .ok ⟨[2, 3], .f32, [3, 1], 0⟩ :=
  C4_identity_reshape ⟨[2, 3], .f32, [3, 1], 0⟩ false (by decide)

/-- The element of a list at a position below its length does not depend
on the default of getD. -/
theorem getD_default_irrel {α : Type} (l : List α) (k : Nat)
    (h : k < l.length) (d1 d2 : α) : l.getD k d1 = l.getD k d2 := by
  rw [List.getD_eq_getElem?_getD, List.getD_eq_getElem?_getD,
    List.getElem?_eq_getElem h]
  rfl

/-- The element of a list at a position below its length belongs to the
list. -/
theorem getD_mem_of_lt {α : Type} (l : List α) (k : Nat)
    (h : k < l.length) (dflt : α) : l.getD k dflt ∈ l := by
  rw [List.getD_eq_getElem?_getD, List.getElem?_eq_getElem h]
  exact List.getElem_mem h

/-- Reading a list back at the index of one of its members returns that
member. -/
theorem getD_indexOf_self {α : Type} [BEq α] [LawfulBEq α] (l : List α)
    (a dflt : α) (h : a ∈ l) : l.getD (l.indexOf a) dflt = a := by
  induction l with
  | nil => cases h
  | cons v tl ih =>
    rw [List.indexOf_cons]
    by_cases hv : (v == a) = true
    · rw [hv]
      exact eq_of_beq hv
    · have hmem : a ∈ tl := by
        cases h with
        | head => exact absurd (beq_self_eq_true a) hv
        | tail _ hm => exact hm
      rw [Bool.not_eq_true] at hv
      rw [hv]
      show tl.getD (tl.indexOf a) dflt = a
      exact ih hmem

/-- In a list without duplicates, the index of the element at position j
is j itself. -/
theorem indexOf_getD_nodup {α : Type} [BEq α] [LawfulBEq α] (l : List α)
    (hnd : l.Nodup) (j : Nat) (hj : j < l.length) (dflt : α) :
    l.indexOf (l.getD j dflt) = j := by
  induction l generalizing j with
  | nil => simp at hj
  | cons v tl ih =>
    rw [List.nodup_cons] at hnd
    cases j with
    | zero =>
      show (v :: tl).indexOf v = 0
      rw [List.indexOf_cons, beq_self_eq_true]
      rfl
    | succ k =>
      have hlt : k < tl.length := by simpa using hj
      have hmem : tl.getD k dflt ∈ tl := getD_mem_of_lt tl k hlt dflt
      have hne : (v == tl.getD k dflt) = false := by
        rw [beq_eq_false_iff_ne]
        intro he
        exact hnd.1 (he ▸ hmem)
      rw [List.getD_cons_succ, List.indexOf_cons, hne]
      show tl.indexOf (tl.getD k dflt) + 1 = k + 1
      rw [ih hnd.2 k hlt]

/-- The index of a member of a list is below the length of the list. -/
theorem indexOf_lt_of_mem {α : Type} [BEq α] [LawfulBEq α] {l : List α}
    {a : α} (h : a ∈ l) : l.indexOf a < l.length := by
  induction l with
  | nil => cases h
  | cons v tl ih =>
    rw [List.indexOf_cons]
    by_cases hv : (v == a) = true
    · rw [hv]
      simp
    · have hmem : a ∈ tl := by
        cases h with
        | head => exact absurd (beq_self_eq_true a) hv
        | tail _ hm => exact hm
      rw [Bool.not_eq_true] at hv
      rw [hv]
      simpa using ih hmem

/-- Reading a mapped range at a position below the bound evaluates the
mapped function there. -/
theorem getD_range_map {β : Type} (f : Nat → β) (n j : Nat) (h : j < n)
    (dflt : β) : ((List.range n).map f).getD j dflt = f j := by
  rw [List.getD_eq_getElem?_getD, List.getElem?_map, List.getElem?_range h]
  rfl

/-- Mapping positional reads over the range of the length of a list
reconstructs the list. -/
theorem range_map_getD {β : Type} (l : List β) (dflt : β) :
    (List.range l.length).map (fun k => l.getD k dflt) = l := by
  induction l with
  | nil => rfl
  | cons v tl ih =>
    show (List.range (tl.length + 1)).map
      (fun k => (v :: tl).getD k dflt) = v :: tl
    rw [List.range_succ_eq_map, List.map_cons, List.map_map]
    show v :: (List.range tl.length).map
      (fun k => tl.getD k dflt) = v :: tl
    rw [ih]

/-- A permutation argument accepted by perm_ok has the length of the
range it permutes. -/
theorem perm_list_length {p : List Int} {n : Nat}
    (hp : List.Perm p ((List.range n).map Int.ofNat)) : p.length = n := by
  simpa using hp.length_eq

/-- A permutation argument accepted by perm_ok has no duplicates. -/
theorem perm_list_nodup {p : List Int} {n : Nat}
    (hp : List.Perm p ((List.range n).map Int.ofNat)) : p.Nodup := by
  refine hp.nodup_iff.mpr ?_
  exact List.Nodup.map (fun a b hab => Int.ofNat_inj.mp hab)
    (List.nodup_range n)

/-- Every axis index below the rank occurs in a valid permutation
argument. -/
theorem perm_list_mem {p : List Int} {n : Nat}
    (hp : List.Perm p ((List.range n).map Int.ofNat)) (j : Nat)
    (hj : j < n) : Int.ofNat j ∈ p := by
  rw [hp.mem_iff, List.mem_map]
  exact ⟨j, List.mem_range.mpr hj, rfl⟩

/-- Every entry of a valid permutation argument is an axis index below
the rank. -/
theorem perm_list_entry {p : List Int} {n : Nat}
    (hp : List.Perm p ((List.range n).map Int.ofNat)) {v : Int}
    (hv : v ∈ p) : ∃ m, m < n ∧ v = Int.ofNat m := by
  rw [hp.mem_iff, List.mem_map] at hv
  obtain ⟨m, hm, hmv⟩ := hv
  exact ⟨m, List.mem_range.mp hm, hmv.symm⟩

/-- The axis permutation written as a map over the range of the list
length. -/
theorem perm_apply_eq (p l : List Int) :
    desc.perm_apply p l = (List.range l.length).map
      (fun j => l.getD (p.indexOf (Int.ofNat j)) 0) := rfl

/-- Pointwise action of the axis permutation: the value at old position i
reappears at new position permutation[i], exactly as documented for
permute_axes in dnnl.hpp. -/
theorem perm_apply_getD (p l : List Int) {n : Nat}
    (hp : List.Perm p ((List.range n).map Int.ofNat)) (hl : l.length = n)
    (i : Nat) (hi : i < n) :
    (desc.perm_apply p l).getD (p.getD i 0).toNat 0 = l.getD i 0 := by
  have hplen := perm_list_length hp
  have hnd := perm_list_nodup hp
  have hv : p.getD i 0 ∈ p := getD_mem_of_lt p i (by omega) 0
  obtain ⟨m, hm, hvm⟩ := perm_list_entry hp hv
  have htn : (p.getD i 0).toNat = m := by rw [hvm]; simp
  rw [perm_apply_eq, hl, htn, getD_range_map _ n m hm]
  rw [← hvm, indexOf_getD_nodup p hnd i (by omega) 0]

/-- The inverse permutation list has no duplicate entries. -/
theorem perm_inverse_nodup (p : List Int) {n : Nat}
    (hp : List.Perm p ((List.range n).map Int.ofNat)) :
    (desc.perm_inverse p).Nodup := by
  unfold desc.perm_inverse
  rw [perm_list_length hp]
  refine List.Nodup.map_on ?_ (List.nodup_range n)
  intro j1 h1 j2 h2 heq
  rw [List.mem_range] at h1 h2
  have hj1 : Int.ofNat j1 ∈ p := perm_list_mem hp j1 h1
  have hj2 : Int.ofNat j2 ∈ p := perm_list_mem hp j2 h2
  have hidx : p.indexOf (Int.ofNat j1) = p.indexOf (Int.ofNat j2) :=
    Int.ofNat_inj.mp heq
  have e1 := getD_indexOf_self p (Int.ofNat j1) 0 hj1
  have e2 := getD_indexOf_self p (Int.ofNat j2) 0 hj2
  rw [hidx, e2] at e1
  exact Int.ofNat_inj.mp e1.symm

/-- The inverse permutation holds axis j at the position given by the
entry of the permutation at j. -/
theorem perm_inverse_getD (p : List Int) {n : Nat}
    (hp : List.Perm p ((List.range n).map Int.ofNat)) (j : Nat)
    (hj : j < n) :
    (desc.perm_inverse p).getD (p.getD j 0).toNat 0 = Int.ofNat j := by
  have hplen := perm_list_length hp
  have hnd := perm_list_nodup hp
  have hv : p.getD j 0 ∈ p := getD_mem_of_lt p j (by omega) 0
  obtain ⟨m, hm, hvm⟩ := perm_list_entry hp hv
  have htn : (p.getD j 0).toNat = m := by rw [hvm]; simp
  unfold desc.perm_inverse
  rw [hplen, htn, getD_range_map _ n m hm, ← hvm,
    indexOf_getD_nodup p hnd j (by omega) 0]

/-- The length of the inverse permutation list is the rank. -/
theorem perm_inverse_length (p : List Int) {n : Nat}
    (hp : List.Perm p ((List.range n).map Int.ofNat)) :
    (desc.perm_inverse p).length = n := by
  unfold desc.perm_inverse
  simp [perm_list_length hp]

/-- The position of axis j inside the inverse permutation is the entry of
the permutation at j. -/
theorem perm_inverse_indexOf (p : List Int) {n : Nat}
    (hp : List.Perm p ((List.range n).map Int.ofNat)) (j : Nat)
    (hj : j < n) :
    (desc.perm_inverse p).indexOf (Int.ofNat j) = (p.getD j 0).toNat := by
  have hqnd := perm_inverse_nodup p hp
  have hqlen := perm_inverse_length p hp
  have hplen := perm_list_length hp
  have hv : p.getD j 0 ∈ p := getD_mem_of_lt p j (by omega) 0
  obtain ⟨m, hm, hvm⟩ := perm_list_entry hp hv
  have hmn : (p.getD j 0).toNat < n := by rw [hvm]; simpa
  have hkey := indexOf_getD_nodup (desc.perm_inverse p) hqnd
    ((p.getD j 0).toNat) (by omega) 0
  rw [perm_inverse_getD p hp j hj] at hkey
  exact hkey

/-- The inverse of a valid permutation is itself a valid permutation of
the same rank. -/
theorem perm_inverse_ok (p : List Int) {n : Nat}
    (hp : List.Perm p ((List.range n).map Int.ofNat)) :
    desc.perm_ok (desc.perm_inverse p) n = true := by
  have hplen := perm_list_length hp
  refine decide_eq_true ?_
  refine (List.perm_ext_iff_of_nodup (perm_inverse_nodup p hp)
    (List.Nodup.map (fun a b hab => Int.ofNat_inj.mp hab)
      (List.nodup_range n))).mpr ?_
  intro v
  constructor
  · intro hv
    unfold desc.perm_inverse at hv
    rw [List.mem_map] at hv
    obtain ⟨j, hj, hjv⟩ := hv
    rw [List.mem_range, hplen] at hj
    rw [List.mem_map]
    refine ⟨p.indexOf (Int.ofNat j), ?_, hjv⟩
    rw [List.mem_range]
    have hlt := indexOf_lt_of_mem (perm_list_mem hp j hj)
    omega
  · intro hv
    rw [List.mem_map] at hv
    obtain ⟨j, hj, hjv⟩ := hv
    rw [List.mem_range] at hj
    subst hjv
    have hvv : p.getD j 0 ∈ p := getD_mem_of_lt p j (by omega) 0
    obtain ⟨m, hm, hvm⟩ := perm_list_entry hp hvv
    have hmn : (p.getD j 0).toNat < (desc.perm_inverse p).length := by
      rw [perm_inverse_length p hp, hvm]
      simpa
    have hmem := getD_mem_of_lt (desc.perm_inverse p)
      ((p.getD j 0).toNat) hmn 0
    rw [perm_inverse_getD p hp j hj] at hmem
    exact hmem

/-- Applying a valid permutation and then its inverse restores any list
of the matching length. -/
theorem perm_apply_inverse (p l : List Int) {n : Nat}
    (hp : List.Perm p ((List.range n).map Int.ofNat)) (hl : l.length = n) :
    desc.perm_apply (desc.perm_inverse p) (desc.perm_apply p l) = l := by
  have halen : (desc.perm_apply p l).length = n := by
    rw [perm_apply_eq]
    simp [hl]
  rw [perm_apply_eq (desc.perm_inverse p) (desc.perm_apply p l), halen]
  have hcongr : ∀ j ∈ List.range n,
      (desc.perm_apply p l).getD
        ((desc.perm_inverse p).indexOf (Int.ofNat j)) 0 = l.getD j 0 := by
    intro j hj
    rw [List.mem_range] at hj
    rw [perm_inverse_indexOf p hp j hj]
    exact perm_apply_getD p l hp hl j hj
  rw [List.map_congr_left hcongr, ← hl]
  exact range_map_getD l 0

/-- C3: applying a valid permutation to a valid descriptor and then the
inverse permutation yields a descriptor equal to the original, under
either allow_empty flag. -/
theorem C3_permute_roundtrip :
    ∀ (d : desc) (p : List Int) (ae : Bool),
      d.valid = true → desc.perm_ok p d.dims.length = true →
      (d.permute_axes p ae).bind
        (fun d1 => d1.permute_axes (desc.perm_inverse p) ae) = .ok d := by
  intro d p ae hv hp
  obtain ⟨ds, dt, ss, off⟩ := d
  have hperm : List.Perm p ((List.range ds.length).map Int.ofNat) :=
    of_decide_eq_true hp
  unfold desc.valid at hv
  rw [Bool.and_eq_true] at hv
  obtain ⟨hslen, _⟩ := hv
  rw [beq_iff_eq] at hslen
  have h1 : desc.permute_axes ⟨ds, dt, ss, off⟩ p ae
      = .ok ⟨desc.perm_apply p ds, dt, desc.perm_apply p ss, off⟩ := by
    simp [desc.permute_axes, hp]
  rw [h1]
  have hdlen : (desc.perm_apply p ds).length = ds.length := by
    rw [perm_apply_eq]
    simp
  have h2 : desc.perm_ok (desc.perm_inverse p)
      (desc.perm_apply p ds).length = true := by
    rw [hdlen]
    exact perm_inverse_ok p hperm
  simp [Except.bind, desc.permute_axes, h2,
    perm_apply_inverse p ds hperm rfl,
    perm_apply_inverse p ss hperm hslen]

/-- C3 witness: the [2, 3] row-major f32 descriptor under the transposing
permutation and its inverse. -/
theorem C3_permute_witness :
    (desc.permute_axes ⟨[2, 3], .f32, [3, 1], 0⟩ [1, 0] false).bind
        (fun d1 => d1.permute_axes (desc.perm_inverse [1, 0]) false)
      = .ok ⟨[2, 3], .f32, [3, 1], 0⟩ :=
  C3_permute_roundtrip ⟨[2, 3], .f32, [3, 1], 0⟩ [1, 0] false
    (by decide) (by decide)

/-- C8: permute_axes moves the dimension and the stride of old axis i to
new axis permutation[i]; on the [2, 3] row-major descriptor the
transposition equals the directly constructed transposed descriptor; and
an invalid permutation fails per the allow_empty flag. -/
theorem C8_permute_semantics :
    (∀ (d : desc) (p : List Int) (d2 : desc) (i : Nat),
        d.valid = true →
        desc.perm_ok p d.dims.length = true →
        d.permute_axes p false = .ok d2 →
        i < d.dims.length →
        d2.dims.getD (p.getD i 0).toNat 0 = d.dims.getD i 0 ∧
        d2.strides.getD (p.getD i 0).toNat 0 = d.strides.getD i 0) ∧
    (desc.permute_axes ⟨[2, 3], .f32, [3, 1], 0⟩ [1, 0] false
      = desc.construct [3, 2] data_type.f32 format_tag.ba false) ∧
    (∀ (d : desc) (p : List Int),
        desc.perm_ok p d.dims.length = false →
        d.permute_axes p false = .error .mk ∧
        d.permute_axes p true = .ok desc.zero) := by
  refine ⟨?_, by decide, ?_⟩
  · intro d p d2 i hv hp hok hi
    have hperm : List.Perm p ((List.range d.dims.length).map Int.ofNat) :=
      of_decide_eq_true hp
    unfold desc.valid at hv
    rw [Bool.and_eq_true] at hv
    obtain ⟨hslen, _⟩ := hv
    rw [beq_iff_eq] at hslen
    have h1 : d.permute_axes p false
        = .ok ⟨desc.perm_apply p d.dims, d.data_type,
            desc.perm_apply p d.strides, d.offset⟩ := by
      simp [desc.permute_axes, hp]
    rw [h1] at hok
    injection hok with hok
    subst hok
    exact ⟨perm_apply_getD p d.dims hperm rfl i hi,
      perm_apply_getD p d.strides hperm hslen i hi⟩
  · intro d p h
    exact ⟨by simp [desc.permute_axes, h, desc.fallback],
      by simp [desc.permute_axes, h, desc.fallback]⟩

/-- C8 witness: the transposing permutation on the [2, 3] row-major f32
descriptor at axis 0, and a non-bijective permutation list. -/
theorem C8_permute_witness :
    ((⟨[3, 2], .f32, [1, 3], 0⟩ : desc).dims.getD 1 0
        = (⟨[2, 3], .f32, [3, 1], 0⟩ : desc).dims.getD 0 0 ∧
      (⟨[3, 2], .f32, [1, 3], 0⟩ : desc).strides.getD 1 0
        = (⟨[2, 3], .f32, [3, 1], 0⟩ : desc).strides.getD 0 0) ∧
    (desc.permute_axes ⟨[2, 3], .f32, [3, 1], 0⟩ [0, 1, 1] false
        = .error .mk ∧
      desc.permute_axes ⟨[2, 3], .f32, [3, 1], 0⟩ [0, 1, 1] true
        = .ok desc.zero) :=
  ⟨C8_permute_semantics.1 ⟨[2, 3], .f32, [3, 1], 0⟩ [1, 0]
      ⟨[3, 2], .f32, [1, 3], 0⟩ 0 (by decide) (by decide) (by decide)
      (by decide),
    C8_permute_semantics.2.2 ⟨[2, 3], .f32, [3, 1], 0⟩ [0, 1, 1]
      (by decide)⟩

/-- Zipping a list with a mapped range of its length pairs each element
with the function value at its position. -/
theorem zip_range_map (l : List Int) (f : Nat → Int) :
    l.zip ((List.range l.length).map f)
      = (List.range l.length).map (fun k => (l.getD k 0, f k)) := by
  induction l generalizing f with
  | nil => rfl
  | cons v tl ih =>
    show (v :: tl).zip ((List.range (tl.length + 1)).map f)
      = (List.range (tl.length + 1)).map
          (fun k => ((v :: tl).getD k 0, f k))
    rw [List.range_succ_eq_map, List.map_cons, List.map_cons,
      List.map_map, List.map_map, List.zip_cons_cons]
    show (v, f 0) :: tl.zip ((List.range tl.length).map (fun k => f (k + 1)))
      = (v, f 0) :: (List.range tl.length).map
          (fun k => (tl.getD k 0, f (k + 1)))
    rw [ih (fun k => f (k + 1))]

/-- Telescoping identity for dense layouts: over a duplicate-free layout
order, summing (size minus one) times the dense stride of every axis and
adding one yields the product of all sizes. -/
theorem dense_span_telescope (g : Nat → Int) :
    ∀ (L : List Nat), L.Nodup →
      (L.map (fun k =>
          (g k - 1) * (((L.drop (L.indexOf k + 1)).map g).prod))).sum + 1
        = (L.map g).prod := by
  intro L
  induction L with
  | nil => simp
  | cons k ks ih =>
    intro hnd
    rw [List.nodup_cons] at hnd
    have hhead : (k :: ks).indexOf k = 0 := by
      rw [List.indexOf_cons, beq_self_eq_true]
      rfl
    have htail : (ks.map (fun k2 =>
        (g k2 - 1) * ((((k :: ks).drop ((k :: ks).indexOf k2 + 1)).map
          g).prod)))
        = ks.map (fun k2 =>
          (g k2 - 1) * (((ks.drop (ks.indexOf k2 + 1)).map g).prod)) := by
      refine List.map_congr_left ?_
      intro k2 hk2
      have hne : (k == k2) = false := by
        rw [beq_eq_false_iff_ne]
        intro he
        exact hnd.1 (he ▸ hk2)
      rw [List.indexOf_cons, hne]
      rfl
    rw [List.map_cons, hhead, List.sum_cons, htail]
    have hih := ih hnd.2
    rw [List.map_cons, List.prod_cons]
    have hdrop : ((k :: ks).drop 1).map g = ks.map g := rfl
    rw [hdrop]
    have hexp : (g k - 1) * (ks.map g).prod
        = g k * (ks.map g).prod - (ks.map g).prod := by ring
    rw [hexp]
    linarith [hih]

/-- The span sum underlying get_size evaluates to the dimension product
minus one on every descriptor carrying the canonical strides of a layout
order that permutes the axis range. -/
theorem span_sum_construct (dims : List Int) (ord : List Nat)
    (hp : List.Perm ord (List.range dims.length)) :
    ((dims.zip (desc.strides_for dims ord)).map
      (fun pr : Int × Int => (pr.1 - 1) * pr.2)).sum + 1 = dims.prod := by
  have hnd : ord.Nodup := hp.nodup_iff.mpr (List.nodup_range _)
  unfold desc.strides_for
  rw [zip_range_map, List.map_map]
  have hstep : (List.range dims.length).map
      ((fun pr : Int × Int => (pr.1 - 1) * pr.2)
        ∘ (fun k => (dims.getD k 0, desc.stride_of dims ord k)))
      = (List.range dims.length).map
        (fun k => (dims.getD k 1 - 1) * desc.stride_of dims ord k) := by
    refine List.map_congr_left ?_
    intro k hk
    rw [List.mem_range] at hk
    show (dims.getD k 0 - 1) * desc.stride_of dims ord k
      = (dims.getD k 1 - 1) * desc.stride_of dims ord k
    rw [getD_default_irrel dims k hk 0 1]
  rw [hstep]
  have hsum : ((List.range dims.length).map
      (fun k => (dims.getD k 1 - 1) * desc.stride_of dims ord k)).sum
      = (ord.map
        (fun k => (dims.getD k 1 - 1) * desc.stride_of dims ord k)).sum :=
    ((hp.map (fun k => (dims.getD k 1 - 1)
      * desc.stride_of dims ord k)).sum_eq).symm
  rw [hsum]
  have htele2 : (ord.map (fun k =>
      (dims.getD k 1 - 1) * desc.stride_of dims ord k)).sum + 1
      = (ord.map (fun j => dims.getD j 1)).prod :=
    dense_span_telescope (fun j => dims.getD j 1) ord hnd
  rw [htele2]
  have hprod : (ord.map (fun j => dims.getD j 1)).prod
      = ((List.range dims.length).map (fun j => dims.getD j 1)).prod :=
    (hp.map (fun j => dims.getD j 1)).prod_eq
  rw [hprod, range_map_getD dims 1]

/-- Every concrete layout order of a format tag is a permutation of the
axis range of its rank. -/
theorem layout_perm (t : format_tag) (ord : List Nat)
    (h : t.layout = some ord) :
    List.Perm ord (List.range ord.length) := by
  cases t <;>
    first
      | (simp only [format_tag.layout] at h; exact Option.noConfusion h)
      | (simp only [format_tag.layout, Option.some.injEq] at h;
          rw [← h]; decide)

/-- Inversion of a successful construction by format tag: the tag has a
concrete layout of matching rank, dimensions are non-negative, and the
result carries the canonical strides at offset zero. -/
theorem construct_ok_elim {dims : List Int} {dt : data_type}
    {tag : format_tag} {d : desc}
    (h : desc.construct dims dt tag false = .ok d) :
    ∃ ord, tag.layout = some ord ∧ ord.length = dims.length ∧
      dims.all (fun v => decide (0 ≤ v)) = true ∧
      d = ⟨dims, dt, desc.strides_for dims ord, 0⟩ := by
  unfold desc.construct at h
  cases hl : tag.layout with
  | none =>
    rw [hl] at h
    simp [desc.fallback] at h
  | some ord =>
    rw [hl] at h
    dsimp only at h
    by_cases hg : ((ord.length == dims.length
        && dims.all (fun v => decide (0 ≤ v)))
        && !(dt == data_type.undef)) = true
    · rw [if_pos hg] at h
      injection h with h
      rw [Bool.and_eq_true, Bool.and_eq_true] at hg
      obtain ⟨⟨hrank, hnn⟩, _⟩ := hg
      rw [beq_iff_eq] at hrank
      exact ⟨ord, rfl, hrank, hnn, h.symm⟩
    · rw [if_neg hg] at h
      simp [desc.fallback] at h

/-- The byte size of every descriptor constructed from a format tag is
exactly the dimension product times the element size: all format tags of
the header denote plain permuted layouts, none padded or blocked. -/
theorem construct_get_size_eq {dims : List Int} {dt : data_type}
    {tag : format_tag} {d : desc}
    (h : desc.construct dims dt tag false = .ok d) :
    d.get_size = dims.prod.toNat * dt.size := by
  obtain ⟨ord, hl, hrank, hnn, hd⟩ := construct_ok_elim h
  have hp : List.Perm ord (List.range dims.length) := by
    rw [← hrank]
    exact layout_perm tag ord hl
  subst hd
  unfold desc.get_size
  show (1 + ((dims.zip (desc.strides_for dims ord)).map
    (fun pr : Int × Int => (pr.1 - 1) * pr.2)).sum).toNat * dt.size = _
  rw [Int.add_comm, span_sum_construct dims ord hp]

/-- C7 amended: for every descriptor successfully constructed from dims,
data type and a format tag, get_size returns at least (and in fact
exactly) product(dims) times the element byte size; no format tag of the
header is padded or blocked, so the strict inequality the claim reserves
for such tags never occurs. -/
theorem C7_get_size_bound :
    ∀ (dims : List Int) (dt : data_type) (tag : format_tag) (d : desc),
      desc.construct dims dt tag false = .ok d →
      d.get_size = dims.prod.toNat * dt.size ∧
      dims.prod.toNat * dt.size ≤ d.get_size := by
  intro dims dt tag d h
  have he := construct_get_size_eq h
  exact ⟨he, le_of_eq he.symm⟩

/-- C7 witness: the [2, 3] f32 row-major descriptor needs exactly 24
bytes. -/
theorem C7_get_size_witness :
    (⟨[2, 3], .f32, [3, 1], 0⟩ : desc).get_size
        = ([2, 3] : List Int).prod.toNat * data_type.f32.size ∧
      ([2, 3] : List Int).prod.toNat * data_type.f32.size
        ≤ (⟨[2, 3], .f32, [3, 1], 0⟩ : desc).get_size :=
  C7_get_size_bound [2, 3] data_type.f32 format_tag.ab
    ⟨[2, 3], .f32, [3, 1], 0⟩ (by decide)

/-- C7 counterexample: the claim that some padded or blocked tags make
get_size strictly greater than the dimension product times the element
size fails: the format tag enumeration of the header holds only plain
permuted layouts, and no construction by tag ever exceeds the product. -/
theorem C7_counterexample :
    ¬ ∃ (dims : List Int) (dt : data_type) (tag : format_tag) (d : desc),
        desc.construct dims dt tag false = .ok d ∧
        dims.prod.toNat * dt.size < d.get_size := by
  rintro ⟨dims, dt, tag, d, h, hlt⟩
  rw [construct_get_size_eq h] at hlt
  exact lt_irrefl _ hlt

end memory

end dnnl

